import Mathlib

/-!
# mcp-duckdb: query normalisation and result materialisation

A shallow embedding of `duckdb/client.go`.

Modelling conventions.

* A Go `string` holding text is modelled as the list of its runes (`GoString`), the way
  `TrimSpace` and `ToUpper` read valid UTF-8 text.  Substring search, splitting and joining
  are done on that list; the patterns the client searches for are ASCII, so a position found
  falls on a rune boundary and cutting there by runes is cutting by bytes.
* Go's `len` and slice bounds count bytes.  Where the client uses them on a type name
  (`IsArrayType`, `GetBaseType`, the nested-type test) the model works on the UTF-8 bytes
  of the name (`GoBytes`, `utf8`).
* A Go index result of `-1` is `none`.
* A run-time panic (slice bounds, index out of range) is `none` of an `Option` result.
* Library behaviour that the repository does not define (the Unicode case table above
  ASCII, `time.Time.Format`, `fmt.Sprint`) is a field of `GoLib`.
-/

namespace Duckdb

/-- The model of a Go `string`. -/
abbrev GoString := List Char

/-! ## The `strings` package -/

/-- Go `strings.Index(s, substr)`: the position of the first occurrence of `substr` in `s`,
`none` for Go's `-1`. -/
def Index : GoString → GoString → Option Nat
  | [], substr => if substr.isPrefixOf [] then some 0 else none
  | c :: cs, substr =>
    if substr.isPrefixOf (c :: cs) then some 0
    else (Index cs substr).map (· + 1)

/-- Go `strings.Contains(s, substr)`. -/
def Contains (s substr : GoString) : Bool := (Index s substr).isSome

/-- Go `strings.Split(s, sep)` for a separator of one character. -/
def Split : GoString → Char → List GoString
  | [], _ => [[]]
  | c :: cs, sep =>
    if c = sep then [] :: Split cs sep
    else
      match Split cs sep with
      | [] => [[c]]
      | l :: ls => (c :: l) :: ls

/-- Go `strings.Join(elems, sep)`. -/
def Join (elems : List GoString) (sep : GoString) : GoString := List.intercalate sep elems

/-- Go `unicode.IsSpace`. -/
def IsSpace (r : Char) : Bool :=
  let n := r.toNat
  n = 0x09 || n = 0x0A || n = 0x0B || n = 0x0C || n = 0x0D || n = 0x20 ||
  n = 0x85 || n = 0xA0 || n = 0x1680 || (0x2000 ≤ n && n ≤ 0x200A) ||
  n = 0x2028 || n = 0x2029 || n = 0x202F || n = 0x205F || n = 0x3000

/-- Go `strings.TrimSpace(s)`: leading white space is dropped, then trailing white space. -/
def TrimSpace (s : GoString) : GoString :=
  ((s.dropWhile IsSpace).reverse.dropWhile IsSpace).reverse

/-- Go `unicode.ToUpper`: ASCII letters are shifted, other ASCII runes are kept, runes above
ASCII go through the case table. -/
def unicodeToUpper (upperTable : Char → Char) (r : Char) : Char :=
  if r.toNat ≤ 0x7F then
    if 'a'.toNat ≤ r.toNat ∧ r.toNat ≤ 'z'.toNat then Char.ofNat (r.toNat - 32) else r
  else upperTable r

/-- Go `strings.ToUpper(s)`. -/
def ToUpper (upperTable : Char → Char) (s : GoString) : GoString :=
  s.map (unicodeToUpper upperTable)

/-- Go `strconv.Itoa`, the rendering `%d` gives an `int`. -/
def Itoa (n : Int) : GoString :=
  if n < 0 then '-' :: Nat.toDigits 10 n.natAbs else Nat.toDigits 10 n.toNat

/-- The bytes of a Go `string`; a byte is a number below 256. -/
abbrev GoBytes := List Nat

/-- The UTF-8 encoding of one rune. -/
def utf8Rune (r : Char) : GoBytes :=
  let n := r.toNat
  if n < 0x80 then [n]
  else if n < 0x800 then [0xC0 + n / 0x40, 0x80 + n % 0x40]
  else if n < 0x10000 then [0xE0 + n / 0x1000, 0x80 + n / 0x40 % 0x40, 0x80 + n % 0x40]
  else [0xF0 + n / 0x40000, 0x80 + n / 0x1000 % 0x40, 0x80 + n / 0x40 % 0x40,
    0x80 + n % 0x40]

/-- The bytes of a text: the UTF-8 encoding of its runes. -/
def utf8 : GoString → GoBytes
  | [] => []
  | r :: rs => utf8Rune r ++ utf8 rs

/-- Go slice expression `s[lo:hi]` on the bytes of a string; `none` is the slice-bounds
panic. -/
def Slice (s : GoBytes) (lo hi : Nat) : Option GoBytes :=
  if lo ≤ hi ∧ hi ≤ s.length then some ((s.take hi).drop lo) else none

/-! ## Query normaliser (`client.go`, lines 213-257) -/

/-- Source `normalizeQuery`. -/
def normalizeQuery (query : GoString) : GoString :=
  let query := TrimSpace query
  let query :=
    if query.length > 0 ∧ query.getLast? = some ';' then query.take (query.length - 1)
    else query
  TrimSpace query

/-- The first loop of `removeComments`: block comments.  One unit of fuel is one iteration. -/
def removeBlockComments : Nat → GoString → GoString
  | 0, result => result
  | fuel + 1, result =>
    match Index result "/*".toList with
    | none => result
    | some startIdx =>
      match Index (result.drop startIdx) "*/".toList with
      | none => result.take startIdx
      | some endIdx =>
        let endIdx := startIdx + endIdx + 2
        removeBlockComments fuel (result.take startIdx ++ " ".toList ++ result.drop endIdx)

/-- The body of the second loop of `removeComments`: one line. -/
def removeLineComment (line : GoString) : GoString :=
  match Index line "--".toList with
  | some commentIdx => line.take commentIdx
  | none => line

/-- Source `removeComments`.  Every iteration of the first loop shortens the text, so its
length is fuel enough (`removeBlockComments_fuel`). -/
def removeComments (query : GoString) : GoString :=
  let result := removeBlockComments query.length query
  let lines := Split result '\n'
  Join (lines.map removeLineComment) "\n".toList

/-- Source `containsLimitClause`. -/
def containsLimitClause (upperTable : Char → Char) (query : GoString) : Bool :=
  let queryWithoutComments := removeComments query
  let upperQuery := ToUpper upperTable queryWithoutComments
  Contains upperQuery " LIMIT ".toList

/-- The head of `QueryData` (lines 67-74): the text handed to the engine. -/
def limitedQuery (upperTable : Char → Char) (query : GoString) (limit : Int) : GoString :=
  let cleanQuery := normalizeQuery query
  if limit > 0 then
    if !containsLimitClause upperTable cleanQuery then
      cleanQuery ++ " LIMIT ".toList ++ Itoa limit
    else cleanQuery
  else cleanQuery

/-- Reference `applyLimit` of the specification (section 4.1), written from its words: a
non-positive limit leaves the query unchanged, an apparent limit clause leaves it unchanged,
otherwise a limit clause with the integer is appended. -/
def applyLimit (upperTable : Char → Char) (normalizedQuery : GoString) (limit : Int) :
    GoString :=
  if limit ≤ 0 then normalizedQuery
  else if containsLimitClause upperTable normalizedQuery = true then normalizedQuery
  else normalizedQuery ++ (" LIMIT ".toList ++ Itoa limit)

/-! ## Type-name helpers (`client.go`, lines 267-276) -/

/-- Source `IsArrayType`, on the bytes of the type name. -/
def IsArrayType (typeName : GoBytes) : Bool :=
  decide (typeName.length ≥ 6) && (typeName.take 5 == utf8 "Array".toList)

/-- Source `GetBaseType`, on the bytes of the type name; `none` is the slice-bounds panic of
`typeName[6 : len(typeName)-1]`. -/
def GetBaseType (typeName : GoBytes) : Option GoBytes :=
  if IsArrayType typeName then Slice typeName 6 (typeName.length - 1)
  else some typeName

/-! ## Result materialiser (`client.go`, lines 19-30 and 66-211) -/

/-- A Go `error`, by its message. -/
abbrev GoError := GoString

/-- Go `fmt.Errorf(msg + ": %w", err)`. -/
def Errorf (msg : GoString) (err : GoError) : GoError := msg ++ err

/-- A Go `time.Time`: an instant and the offset of its zone. -/
structure GoTime where
  unixNano : Int
  zoneOffset : Int
deriving DecidableEq

/-- A Go value of type `any`, by its dynamic type. -/
inductive GoAny where
  | nil
  | bytes (val : GoString)
  | slice (val : List GoAny)
  | str (val : GoString)
  | strSlice (val : List GoString)
  | uint64 (val : Nat)
  | int64 (val : Int)
  | float64 (bits : Nat)
  | bool (val : Bool)
  | other (tag : Nat)

/-- Library behaviour outside the repository. -/
structure GoLib where
  /-- Go `unicode.ToUpper` on a rune above ASCII. -/
  upperTable : Char → Char
  /-- Go `t.Format(time.RFC3339)`. -/
  formatRFC3339 : GoTime → GoString
  /-- Go `fmt.Sprint(item)`. -/
  sprint : GoAny → GoString

/-- Source `ColumnInfo`. -/
structure ColumnInfo where
  Name : GoString
  Typ : GoString
  Position : Nat
  IsArray : Bool
  IsNested : Bool
deriving DecidableEq

/-- A Go `map[string]any`: at most one entry for a key. -/
abbrev Row := List (GoString × GoAny)

/-- Go `row[key] = val`. -/
def Row.assign : Row → GoString → GoAny → Row
  | [], key, val => [(key, val)]
  | (k, v) :: rest, key, val =>
    if k = key then (key, val) :: rest else (k, v) :: Row.assign rest key val

/-- Go `row[key]`, `none` when the key is absent. -/
def Row.lookup : Row → GoString → Option GoAny
  | [], _ => none
  | (k, v) :: rest, key => if k = key then some v else Row.lookup rest key

/-- Source `QueryResult`. -/
structure QueryResult where
  Columns : List ColumnInfo
  Rows : List Row

/-- Go `QueryResult{}`. -/
def QueryResult.zero : QueryResult := { Columns := [], Rows := [] }

/-- A Go `*sql.ColumnType`, by the two methods the client calls. -/
structure ColumnType where
  Name : GoString
  DatabaseTypeName : GoString

/-- The scan destinations of `QueryData` after a successful `rows.Scan`. -/
structure ScanVars where
  stringVars : Nat → GoString
  intVars : Nat → Int
  uintVars : Nat → Nat
  floatVars : Nat → Nat
  boolVars : Nat → Bool
  timeVars : Nat → GoTime
  anyVars : Nat → GoAny

/-- A Go `*sql.Rows`: the metadata calls, the outcome of `Scan` on each record `Next`
yields, and the deferred error `Err` reports. -/
structure SqlRows where
  ColumnTypes : Except GoError (List ColumnType)
  Columns : Except GoError (List GoString)
  records : List (Except GoError ScanVars)
  Err : Option GoError

/-- A Go `*sql.Conn`, by the two methods the client calls. -/
structure SqlConn where
  PingContext : Option GoError
  QueryContext : GoString → Except GoError SqlRows

/-- Source `DefaultClient`. -/
structure DefaultClient where
  conn : SqlConn

/-- Source `ensureConnection`. -/
def ensureConnection (c : DefaultClient) : Option GoError :=
  match c.conn.PingContext with
  | some err => some (Errorf "can not verify connection: ".toList err)
  | none => none

/-- The loop of lines 96-109: one `ColumnInfo` for each column type, `i` counting from the
given index. -/
def buildColumns : Nat → List ColumnType → List ColumnInfo
  | _, [] => []
  | i, ct :: rest =>
    let dbType := ct.DatabaseTypeName
    let isArray := IsArrayType (utf8 dbType)
    let isNested :=
      decide ((utf8 dbType).length ≥ 7) && ((utf8 dbType).take 6 == utf8 "Nested".toList)
    { Name := ct.Name, Typ := dbType, Position := i + 1, IsArray := isArray,
      IsNested := isNested } :: buildColumns (i + 1) rest

/-- The conversion of one element of a byte-sequence array (lines 173-177). -/
def itemText (lib : GoLib) (item : GoAny) : GoString :=
  match item with
  | .bytes byteItem => byteItem
  | _ => lib.sprint item

/-- The switch of lines 149-189: the value stored under `col.Name` for column `i`. -/
def decodeValue (lib : GoLib) (col : ColumnInfo) (vars : ScanVars) (i : Nat) : GoAny :=
  if col.Typ = "String".toList then .str (vars.stringVars i)
  else if col.Typ ∈ ["UInt8".toList, "UInt16".toList, "UInt32".toList, "UInt64".toList] then
    .uint64 (vars.uintVars i)
  else if col.Typ ∈ ["Int8".toList, "Int16".toList, "Int32".toList, "Int64".toList] then
    .int64 (vars.intVars i)
  else if col.Typ ∈ ["Float32".toList, "Float64".toList] then .float64 (vars.floatVars i)
  else if col.Typ = "Bool".toList then .bool (vars.boolVars i)
  else if col.Typ ∈ ["Date".toList, "DateTime".toList] then
    .str (lib.formatRFC3339 (vars.timeVars i))
  else
    let v := vars.anyVars i
    match v with
    | .bytes val => .str val
    | .slice val =>
      if col.IsArray = true ∧ val.length > 0 then
        match val.head? with
        | some (.bytes _) => .strSlice (val.map (itemText lib))
        | _ => .slice val
      else .slice val
    | _ => v

/-- The loop of lines 148-190 from column index `i` on. -/
def decodeColumns (lib : GoLib) (vars : ScanVars) : Nat → List ColumnInfo → Row → Row
  | _, [], row => row
  | i, col :: rest, row =>
    decodeColumns lib vars (i + 1) rest (row.assign col.Name (decodeValue lib col vars i))

/-- The row built for one record (lines 146-190). -/
def decodeRow (lib : GoLib) (columns : List ColumnInfo) (vars : ScanVars) : Row :=
  decodeColumns lib vars 0 columns []

/-- The loop of lines 141-193 over the records the cursor yields. -/
def scanRows (lib : GoLib) (columns : List ColumnInfo) :
    List (Except GoError ScanVars) → List Row → Except GoError (List Row)
  | [], results => .ok results
  | .error err :: _, _ => .error (Errorf "can not scan data: ".toList err)
  | .ok vars :: rest, results =>
    scanRows lib columns rest (results ++ [decodeRow lib columns vars])

/-- The tail of `QueryData` (lines 76-203) on the text handed to the engine.  `none` is the
index-out-of-range panic of `destPointers[i]` when the engine reports more column types
than column names. -/
def executeQuery (lib : GoLib) (c : DefaultClient) (limitedQuery : GoString) :
    Option (QueryResult × Option GoError) :=
  match ensureConnection c with
  | some err => some (QueryResult.zero, some err)
  | none =>
  match c.conn.QueryContext limitedQuery with
  | .error err => some (QueryResult.zero, some (Errorf "can not execute query: ".toList err))
  | .ok rows =>
  match rows.ColumnTypes with
  | .error err =>
    some (QueryResult.zero, some (Errorf "can not get column types: ".toList err))
  | .ok columnTypes =>
  match rows.Columns with
  | .error err => some (QueryResult.zero, some (Errorf "can not get columns: ".toList err))
  | .ok columnNames =>
    let columns := buildColumns 0 columnTypes
    if columnNames.length < columns.length then none
    else
      match scanRows lib columns rows.records [] with
      | .error err => some (QueryResult.zero, some err)
      | .ok results =>
        match rows.Err with
        | some err =>
          some (QueryResult.zero, some (Errorf "can not process results: ".toList err))
        | none => some ({ Columns := columns, Rows := results }, none)

/-- Source `QueryData`. -/
def QueryData (lib : GoLib) (c : DefaultClient) (query : GoString) (limit : Int) :
    Option (QueryResult × Option GoError) :=
  executeQuery lib c (limitedQuery lib.upperTable query limit)

/-! ## Names used in the statements, and concrete inputs -/

/-- The pattern of two characters `a b` occurs in `s` at position `j`. -/
def occursAt (a b : Char) (s : GoString) (j : Nat) : Prop :=
  s[j]? = some a ∧ s[j + 1]? = some b

/-- A text with no white space at either end. -/
def Trimmed (s : GoString) : Prop :=
  (∀ c, s.head? = some c → IsSpace c = false) ∧ (∀ c, s.getLast? = some c → IsSpace c = false)

/-- A text of white space only. -/
def AllSpace (s : GoString) : Prop := ∀ c ∈ s, IsSpace c = true

/-- The type names of the dispatch table of `QueryData` (lines 123-135 and 149-161). -/
def dispatchTypeNames : List GoString :=
  ["String".toList, "UInt8".toList, "UInt16".toList, "UInt32".toList, "UInt64".toList,
   "Int8".toList, "Int16".toList, "Int32".toList, "Int64".toList, "Float32".toList,
   "Float64".toList, "Bool".toList, "Date".toList, "DateTime".toList]

/-- Scan destinations in which signed column `i` holds `i + 1` and the dynamic columns hold
the array `[[]byte("a"), int64(7)]`. -/
def sampleVars : ScanVars :=
  { stringVars := fun _ => [], intVars := fun i => (i : Int) + 1, uintVars := fun _ => 0,
    floatVars := fun _ => 0, boolVars := fun _ => false, timeVars := fun _ => ⟨0, 0⟩,
    anyVars := fun _ => .slice [.bytes "a".toList, .int64 7] }

/-- The columns of `SELECT 1 AS a, 2 AS a`: two signed columns of one name. -/
def sameNameTypes : List ColumnType :=
  [⟨"a".toList, "Int32".toList⟩, ⟨"a".toList, "Int32".toList⟩]

/-- The columns of `SELECT 1 AS a, 2 AS b`. -/
def twoNameTypes : List ColumnType :=
  [⟨"a".toList, "Int32".toList⟩, ⟨"b".toList, "Int32".toList⟩]

/-- An array column of a type outside the dispatch table. -/
def tagsColumn : ColumnInfo :=
  { Name := "tags".toList, Typ := "Array(String)".toList, Position := 1,
    IsArray := IsArrayType (utf8 "Array(String)".toList), IsNested := false }

/-- A client whose engine answers every text with the given cursor. -/
def clientOf (rows : SqlRows) : DefaultClient :=
  { conn := { PingContext := none, QueryContext := fun _ => .ok rows } }

/-- A cursor over two signed columns whose second record fails to scan. -/
def failingScanRows : SqlRows :=
  { ColumnTypes := .ok twoNameTypes, Columns := .ok ["a".toList, "b".toList],
    records := [.ok sampleVars, .error "conversion".toList, .ok sampleVars], Err := none }

/-- A cursor over two signed columns that reports a deferred error after one record. -/
def brokenCursorRows : SqlRows :=
  { ColumnTypes := .ok twoNameTypes, Columns := .ok ["a".toList, "b".toList],
    records := [.ok sampleVars], Err := some "interrupted".toList }

/-! ## Lemmas on the library layer -/

theorem Index_bound (s substr : GoString) (i : Nat) (h : Index s substr = some i) :
    i + substr.length ≤ s.length := by
  induction s generalizing i with
  | nil =>
    simp only [Index] at h
    split at h
    · rename_i hp
      have hlen := (List.isPrefixOf_iff_prefix.mp hp).length_le
      simp only [Option.some.injEq] at h
      omega
    · cases h
  | cons c cs ih =>
    simp only [Index] at h
    split at h
    · rename_i hp
      have hlen := (List.isPrefixOf_iff_prefix.mp hp).length_le
      simp only [Option.some.injEq] at h
      omega
    · cases hcs : Index cs substr with
      | none => simp [hcs] at h
      | some j =>
        simp only [hcs, Option.map_some', Option.some.injEq] at h
        have := ih j hcs
        simp only [List.length_cons]
        omega

theorem utf8_append (a b : GoString) : utf8 (a ++ b) = utf8 a ++ utf8 b := by
  induction a with
  | nil => rfl
  | cons r rs ih => simp [utf8, ih]

theorem removeBlockComments_nil (fuel : Nat) : removeBlockComments fuel [] = [] := by
  cases fuel <;> rfl

/-- The loop of `removeComments` has stopped once the fuel reaches the length of the text:
more fuel gives the same result. -/
theorem removeBlockComments_fuel (fuel : Nat) :
    ∀ (s : GoString), s.length ≤ fuel → ∀ k : Nat,
      removeBlockComments (fuel + k) s = removeBlockComments fuel s := by
  induction fuel with
  | zero =>
    intro s h k
    have hs : s = [] := List.length_eq_zero.mp (Nat.le_zero.mp h)
    subst hs
    simp [removeBlockComments_nil]
  | succ fuel ih =>
    intro s h k
    have hk : fuel + 1 + k = (fuel + k) + 1 := by omega
    rw [hk]
    simp only [removeBlockComments]
    cases h1 : Index s "/*".toList with
    | none => rfl
    | some startIdx =>
      cases h2 : Index (s.drop startIdx) "*/".toList with
      | none => simp only [h2]
      | some endIdx =>
        simp only [h2]
        apply ih
        have b2 := Index_bound _ _ _ h2
        have l2 : "*/".toList.length = 2 := rfl
        have l1 : " ".toList.length = 1 := rfl
        simp only [List.length_drop, l2] at b2
        simp only [List.length_append, List.length_take, List.length_drop, l1]
        omega

theorem TrimSpace_eq (s : GoString) :
    TrimSpace s = (s.dropWhile IsSpace).rdropWhile IsSpace := rfl

theorem TrimSpace_length_le (s : GoString) : (TrimSpace s).length ≤ s.length := by
  rw [TrimSpace_eq]
  exact le_trans (List.rdropWhile_prefix IsSpace _).length_le
    (List.dropWhile_suffix IsSpace).length_le

theorem TrimSpace_idempotent (s : GoString) : TrimSpace (TrimSpace s) = TrimSpace s := by
  rw [TrimSpace_eq s]
  generalize ha : s.dropWhile IsSpace = a
  have hhead : a.dropWhile IsSpace = a := by rw [← ha, List.dropWhile_idempotent]
  have hb : ((a.rdropWhile IsSpace).dropWhile IsSpace) = a.rdropWhile IsSpace := by
    obtain ⟨t, ht⟩ := List.rdropWhile_prefix IsSpace a
    cases hbb : a.rdropWhile IsSpace with
    | nil => rfl
    | cons x xs =>
      rw [hbb] at ht
      rw [← ht] at hhead
      simp only [List.cons_append, List.dropWhile_cons] at hhead
      simp only [List.dropWhile_cons]
      split
      · rename_i hx
        rw [if_pos hx] at hhead
        have hl := (List.dropWhile_suffix IsSpace (l := xs ++ t)).length_le
        rw [hhead] at hl
        simp at hl
      · rfl
  rw [TrimSpace_eq, hb, List.rdropWhile_idempotent]

theorem dropWhile_append_all (p : Char → Bool) (ws l : GoString)
    (h : ∀ c ∈ ws, p c = true) : (ws ++ l).dropWhile p = l.dropWhile p := by
  induction ws with
  | nil => rfl
  | cons c cs ih =>
    have hc : p c = true := h c (List.mem_cons_self _ _)
    simp only [List.cons_append, List.dropWhile_cons, hc, if_true]
    exact ih (fun x hx => h x (List.mem_cons_of_mem _ hx))

theorem rdropWhile_append_all (p : Char → Bool) (l ws : GoString)
    (h : ∀ c ∈ ws, p c = true) : (l ++ ws).rdropWhile p = l.rdropWhile p := by
  unfold List.rdropWhile
  rw [List.reverse_append, dropWhile_append_all p _ _ (fun c hc => h c (List.mem_reverse.mp hc))]

/-- White space around a trimmed text is what `TrimSpace` removes. -/
theorem TrimSpace_sandwich (ws1 core ws2 : GoString) (h1 : AllSpace ws1) (h2 : AllSpace ws2)
    (hc : Trimmed core) : TrimSpace (ws1 ++ core ++ ws2) = core := by
  rw [TrimSpace_eq, List.append_assoc, dropWhile_append_all IsSpace ws1 _ h1]
  cases core with
  | nil =>
    have : ([] ++ ws2).dropWhile IsSpace = [] := by
      rw [List.nil_append, List.dropWhile_eq_nil_iff]
      exact h2
    rw [this]
    rfl
  | cons c cs =>
    have hhead : IsSpace c = false := hc.1 c rfl
    have hd : ((c :: cs) ++ ws2).dropWhile IsSpace = (c :: cs) ++ ws2 := by
      simp [List.dropWhile_cons, hhead]
    rw [hd, rdropWhile_append_all IsSpace _ _ h2, List.rdropWhile_eq_self_iff]
    intro hl hsp
    have := hc.2 _ (List.getLast?_eq_getLast _ hl)
    rw [this] at hsp
    cases hsp

theorem TrimSpace_of_trimmed (s : GoString) (h : Trimmed s) : TrimSpace s = s := by
  have := TrimSpace_sandwich [] s [] (fun _ hc => absurd hc (List.not_mem_nil _))
    (fun _ hc => absurd hc (List.not_mem_nil _)) h
  simpa using this

theorem TrimSpace_trimmed (s : GoString) : Trimmed (TrimSpace s) := by
  have hid := TrimSpace_idempotent s
  generalize TrimSpace s = t at hid
  have hlen1 : (t.dropWhile IsSpace).length ≤ t.length :=
    (List.dropWhile_suffix IsSpace).length_le
  have hlen2 : (TrimSpace t).length ≤ (t.dropWhile IsSpace).length := by
    rw [TrimSpace_eq]
    exact (List.rdropWhile_prefix IsSpace _).length_le
  have hdrop : t.dropWhile IsSpace = t := by
    apply (List.dropWhile_suffix IsSpace).eq_of_length
    rw [hid] at hlen2
    omega
  have hr : t.rdropWhile IsSpace = t := by
    have := hid
    rw [TrimSpace_eq, hdrop] at this
    exact this
  constructor
  · intro c hc
    cases t with
    | nil => cases hc
    | cons x xs =>
      simp only [List.head?_cons, Option.some.injEq] at hc
      subst hc
      simp only [List.dropWhile_cons] at hdrop
      by_contra hsp
      have hx : IsSpace x = true := by simpa using hsp
      rw [if_pos hx] at hdrop
      have := (List.dropWhile_suffix IsSpace (l := xs)).length_le
      rw [hdrop] at this
      simp at this
  · intro c hc
    have hne : t ≠ [] := by
      intro h0
      rw [h0] at hc
      cases hc
    have hnot := List.rdropWhile_eq_self_iff.mp hr hne
    rw [List.getLast?_eq_getLast _ hne] at hc
    simp only [Option.some.injEq] at hc
    rw [hc] at hnot
    simpa using hnot

theorem isPrefixOf_pair (a b : Char) (s : GoString) :
    [a, b].isPrefixOf s = true ↔ occursAt a b s 0 := by
  unfold occursAt
  match s with
  | [] => simp [List.isPrefixOf]
  | [c] => simp [List.isPrefixOf]
  | c :: d :: rest =>
    simp [List.isPrefixOf]
    constructor
    · rintro ⟨h1, h2⟩; exact ⟨h1.symm, h2.symm⟩
    · rintro ⟨h1, h2⟩; exact ⟨h1.symm, h2.symm⟩

theorem occursAt_cons (a b c : Char) (s : GoString) (j : Nat) :
    occursAt a b (c :: s) (j + 1) ↔ occursAt a b s j := by
  simp [occursAt]

theorem Index_pair (a b : Char) (s : GoString) :
    match Index s [a, b] with
    | some i => occursAt a b s i ∧ ∀ j, j < i → ¬ occursAt a b s j
    | none => ∀ j, ¬ occursAt a b s j := by
  induction s with
  | nil => simp [Index, List.isPrefixOf, occursAt]
  | cons c cs ih =>
    simp only [Index]
    by_cases hp : [a, b].isPrefixOf (c :: cs) = true
    · rw [if_pos hp]
      exact ⟨(isPrefixOf_pair a b _).mp hp, fun j hj => absurd hj (Nat.not_lt_zero j)⟩
    · rw [if_neg hp]
      have h0 : ¬ occursAt a b (c :: cs) 0 := fun h => hp ((isPrefixOf_pair a b _).mpr h)
      cases hi : Index cs [a, b] with
      | none =>
        rw [hi] at ih
        simp only [Option.map_none']
        intro j
        cases j with
        | zero => exact h0
        | succ j => rw [occursAt_cons]; exact ih j
      | some i =>
        rw [hi] at ih
        simp only [Option.map_some']
        refine ⟨(occursAt_cons a b c cs i).mpr ih.1, ?_⟩
        intro j hj
        cases j with
        | zero => exact h0
        | succ j => rw [occursAt_cons]; exact ih.2 j (by omega)

theorem Index_pair_eq_some (a b : Char) (s : GoString) (i : Nat)
    (hi : occursAt a b s i) (hmin : ∀ j, j < i → ¬ occursAt a b s j) :
    Index s [a, b] = some i := by
  have h := Index_pair a b s
  cases hx : Index s [a, b] with
  | none => rw [hx] at h; exact absurd hi (h i)
  | some k =>
    rw [hx] at h
    rcases Nat.lt_trichotomy k i with hlt | heq | hgt
    · exact absurd h.1 (hmin k hlt)
    · rw [heq]
    · exact absurd hi (h.2 i hgt)

theorem Index_pair_eq_none (a b : Char) (s : GoString) (h : Index s [a, b] = none) (j : Nat) :
    ¬ occursAt a b s j := by
  have h2 := Index_pair a b s
  rw [h] at h2
  exact h2 j

theorem Index_open_after (pre rest : GoString) (h : Index pre "/*".toList = none) :
    Index (pre ++ '/' :: '*' :: rest) "/*".toList = some pre.length := by
  apply Index_pair_eq_some
  · constructor
    · rw [List.getElem?_append_right (Nat.le_refl _)]; simp
    · rw [List.getElem?_append_right (Nat.le_succ _)]; simp
  · intro j hj hocc
    by_cases hj2 : j + 1 < pre.length
    · apply Index_pair_eq_none '/' '*' pre h j
      refine ⟨?_, ?_⟩
      · rw [← hocc.1, List.getElem?_append_left hj]
      · rw [← hocc.2, List.getElem?_append_left hj2]
    · have hj3 : j + 1 = pre.length := by omega
      have h2 := hocc.2
      rw [List.getElem?_append_right (by omega), hj3] at h2
      simp at h2

theorem Index_close_after (body post : GoString) (h : Index body "*/".toList = none)
    (hhead : body.head? ≠ some '/') :
    Index ('/' :: '*' :: (body ++ '*' :: '/' :: post)) "*/".toList = some (body.length + 2) := by
  apply Index_pair_eq_some
  · constructor
    · simp only [List.getElem?_cons_succ]
      rw [List.getElem?_append_right (Nat.le_refl _)]; simp
    · simp only [List.getElem?_cons_succ]
      rw [List.getElem?_append_right (Nat.le_succ _)]; simp
  · intro j hj hocc
    obtain ⟨h1, h2⟩ := hocc
    match j, hj with
    | 0, _ => simp at h1
    | 1, _ =>
      simp only [List.getElem?_cons_succ] at h2
      cases body with
      | nil => simp at h2
      | cons x xs =>
        simp at h2
        simp [h2] at hhead
    | j + 2, hj =>
      simp only [List.getElem?_cons_succ] at h1 h2
      have hjb : j < body.length := by omega
      rw [List.getElem?_append_left hjb] at h1
      by_cases hj2 : j + 1 < body.length
      · rw [List.getElem?_append_left hj2] at h2
        exact Index_pair_eq_none '*' '/' body h j ⟨h1, h2⟩
      · have hj3 : j + 1 = body.length := by omega
        rw [List.getElem?_append_right (by omega), hj3] at h2
        simp at h2

theorem removeBlockComments_step (fuel : Nat) (pre body post : GoString)
    (hpre : Index pre "/*".toList = none) (hbody : Index body "*/".toList = none)
    (hhead : body.head? ≠ some '/') :
    removeBlockComments (fuel + 1) (pre ++ "/*".toList ++ body ++ "*/".toList ++ post)
      = removeBlockComments fuel (pre ++ " ".toList ++ post) := by
  have hX : pre ++ "/*".toList ++ body ++ "*/".toList ++ post
      = pre ++ '/' :: '*' :: (body ++ '*' :: '/' :: post) := by
    simp
  rw [hX]
  simp only [removeBlockComments]
  rw [Index_open_after pre _ hpre]
  simp only [List.drop_left]
  rw [Index_close_after body post hbody hhead]
  simp only [List.take_left]
  congr 2
  have : pre.length + (body.length + 2) + 2
      = (pre ++ '/' :: '*' :: (body ++ ['*', '/'])).length := by
    simp; omega
  rw [this]
  have h2 : pre ++ '/' :: '*' :: (body ++ '*' :: '/' :: post)
      = (pre ++ '/' :: '*' :: (body ++ ['*', '/'])) ++ post := by simp
  rw [h2, List.drop_left]

/-- A block comment whose body does not begin with `/` is replaced by one space. -/
theorem removeComments_block (pre body post : GoString)
    (hpre : Index pre "/*".toList = none) (hbody : Index body "*/".toList = none)
    (hhead : body.head? ≠ some '/') :
    removeComments (pre ++ "/*".toList ++ body ++ "*/".toList ++ post)
      = removeComments (pre ++ " ".toList ++ post) := by
  have hlen : (pre ++ "/*".toList ++ body ++ "*/".toList ++ post).length
      = ((pre ++ " ".toList ++ post).length + (body.length + 2)) + 1 := by
    have l1 : "/*".toList.length = 2 := rfl
    have l2 : "*/".toList.length = 2 := rfl
    have l3 : " ".toList.length = 1 := rfl
    simp only [List.length_append, l1, l2, l3]
    omega
  unfold removeComments
  simp only
  rw [hlen, removeBlockComments_step _ pre body post hpre hbody hhead,
    removeBlockComments_fuel _ _ (Nat.le_refl _)]

theorem normalizeQuery_no_terminator (q : GoString)
    (h : (TrimSpace q).getLast? ≠ some ';') : normalizeQuery q = TrimSpace q := by
  unfold normalizeQuery
  simp only
  rw [if_neg (fun hc => h hc.2)]
  exact TrimSpace_idempotent q

theorem normalizeQuery_terminator (q u : GoString) (h : TrimSpace q = u ++ [';']) :
    normalizeQuery q = TrimSpace u := by
  unfold normalizeQuery
  simp only [h]
  rw [if_pos ⟨by simp, by simp⟩]
  simp

theorem Trimmed_append_terminator (x : GoString)
    (hhead : ∀ c, x.head? = some c → IsSpace c = false) : Trimmed (x ++ [';']) := by
  constructor
  · intro c hc
    cases x with
    | nil =>
      simp only [List.nil_append, List.head?_cons, Option.some.injEq] at hc
      subst hc
      decide
    | cons y ys =>
      simp only [List.cons_append, List.head?_cons, Option.some.injEq] at hc
      exact hhead c (by simp [hc])
  · intro c hc
    have hl : (x ++ [';']).getLast? = some ';' := by simp
    rw [hl] at hc
    simp only [Option.some.injEq] at hc
    subst hc
    decide

theorem normalizeQuery_second_pass (q : GoString) :
    normalizeQuery (normalizeQuery q) = normalizeQuery q
      ↔ (normalizeQuery q).getLast? ≠ some ';' := by
  have htrim : TrimSpace (normalizeQuery q) = normalizeQuery q := by
    unfold normalizeQuery
    exact TrimSpace_idempotent _
  generalize normalizeQuery q = t at htrim ⊢
  constructor
  · intro h hlast
    have hpos : t.length > 0 := by
      cases t with
      | nil => simp at hlast
      | cons x xs => simp
    have hlen := TrimSpace_length_le (t.take (t.length - 1))
    have : normalizeQuery t = TrimSpace (t.take (t.length - 1)) := by
      simp only [normalizeQuery, htrim]
      rw [if_pos ⟨hpos, hlast⟩]
    rw [this] at h
    rw [h, List.length_take] at hlen
    omega
  · intro hlast
    simp only [normalizeQuery, htrim]
    rw [if_neg (fun hc => hlast hc.2)]
    exact htrim

/-! ## Lemmas on the materialiser -/

theorem Row.lookup_assign_same (row : Row) (key : GoString) (val : GoAny) :
    (row.assign key val).lookup key = some val := by
  induction row with
  | nil => simp [Row.assign, Row.lookup]
  | cons e rest ih =>
    obtain ⟨k, v⟩ := e
    by_cases hk : k = key
    · simp [Row.assign, Row.lookup, hk]
    · simp [Row.assign, Row.lookup, hk, ih]

theorem Row.lookup_assign_other (row : Row) (key other : GoString) (val : GoAny)
    (h : key ≠ other) : (row.assign key val).lookup other = row.lookup other := by
  induction row with
  | nil => simp [Row.assign, Row.lookup, h]
  | cons e rest ih =>
    obtain ⟨k, v⟩ := e
    by_cases hk : k = key
    · subst hk
      simp [Row.assign, Row.lookup, h]
    · by_cases hko : k = other
      · subst hko
        simp [Row.assign, Row.lookup, hk]
      · simp [Row.assign, Row.lookup, hk, hko, ih]

theorem Row.keys_assign_fresh (row : Row) (key : GoString) (val : GoAny)
    (h : key ∉ row.map Prod.fst) :
    (row.assign key val).map Prod.fst = row.map Prod.fst ++ [key] := by
  induction row with
  | nil => simp [Row.assign]
  | cons e rest ih =>
    obtain ⟨k, v⟩ := e
    simp only [List.map_cons, List.mem_cons, not_or] at h
    have hk : ¬ k = key := fun hc => h.1 hc.symm
    simp [Row.assign, hk, ih h.2]

theorem decodeColumns_lookup_absent (lib : GoLib) (vars : ScanVars) (name : GoString) :
    ∀ (cols : List ColumnInfo) (k : Nat) (row : Row), (∀ col ∈ cols, col.Name ≠ name) →
      (decodeColumns lib vars k cols row).lookup name = row.lookup name := by
  intro cols
  induction cols with
  | nil => intro k row _; rfl
  | cons col rest ih =>
    intro k row h
    simp only [decodeColumns]
    rw [ih _ _ (fun c hc => h c (List.mem_cons_of_mem _ hc))]
    exact Row.lookup_assign_other _ _ _ _ (h col (List.mem_cons_self _ _))

theorem decodeColumns_lookup (lib : GoLib) (vars : ScanVars) :
    ∀ (cols : List ColumnInfo) (k : Nat) (row : Row) (i : Nat) (h : i < cols.length),
      (∀ j (hj : j < cols.length), i < j → cols[j].Name ≠ cols[i].Name) →
      (decodeColumns lib vars k cols row).lookup cols[i].Name
        = some (decodeValue lib cols[i] vars (k + i)) := by
  intro cols
  induction cols with
  | nil => intro k row i h; simp at h
  | cons col rest ih =>
    intro k row i h hlast
    cases i with
    | zero =>
      simp only [decodeColumns, List.getElem_cons_zero, Nat.add_zero]
      rw [decodeColumns_lookup_absent]
      · exact Row.lookup_assign_same _ _ _
      · intro c hc
        obtain ⟨j, hj, rfl⟩ := List.getElem_of_mem hc
        have := hlast (j + 1) (by simp; omega) (by omega)
        simpa using this
    | succ i =>
      simp only [decodeColumns, List.getElem_cons_succ]
      have hi : i < rest.length := by simpa using h
      have := ih (k + 1) (row.assign col.Name (decodeValue lib col vars k)) i hi (by
        intro j hj hij
        have := hlast (j + 1) (by simp; omega) (by omega)
        simpa using this)
      rw [this]
      congr 2
      omega

theorem decodeColumns_keys (lib : GoLib) (vars : ScanVars) :
    ∀ (cols : List ColumnInfo) (k : Nat) (row : Row),
      (row.map Prod.fst ++ cols.map (·.Name)).Nodup →
      (decodeColumns lib vars k cols row).map Prod.fst
        = row.map Prod.fst ++ cols.map (·.Name) := by
  intro cols
  induction cols with
  | nil => intro k row _; simp [decodeColumns]
  | cons col rest ih =>
    intro k row h
    have hfresh : col.Name ∉ row.map Prod.fst := by
      intro hc
      have := (List.nodup_append.mp h).2.2 hc (by simp)
      exact this
    have hkeys := Row.keys_assign_fresh row col.Name (decodeValue lib col vars k) hfresh
    simp only [decodeColumns]
    rw [ih, hkeys]
    · simp
    · rw [hkeys]
      simpa using h

theorem scanRows_ok_iff (lib : GoLib) (columns : List ColumnInfo) :
    ∀ (records : List (Except GoError ScanVars)) (acc results : List Row),
      scanRows lib columns records acc = .ok results ↔
        ∃ vs : List ScanVars, records = vs.map Except.ok
          ∧ results = acc ++ vs.map (decodeRow lib columns) := by
  intro records
  induction records with
  | nil =>
    intro acc results
    simp only [scanRows, Except.ok.injEq]
    constructor
    · intro h; exact ⟨[], rfl, by simp [h]⟩
    · rintro ⟨vs, hvs, hres⟩
      have : vs = [] := by
        cases vs with
        | nil => rfl
        | cons _ _ => simp at hvs
      subst this
      simp [hres]
  | cons r rest ih =>
    intro acc results
    cases r with
    | error e =>
      simp only [scanRows]
      constructor
      · intro h; cases h
      · rintro ⟨vs, hvs, _⟩
        cases vs with
        | nil => simp at hvs
        | cons _ _ => simp at hvs
    | ok vars =>
      simp only [scanRows]
      rw [ih]
      constructor
      · rintro ⟨vs, hvs, hres⟩
        exact ⟨vars :: vs, by simp [hvs], by simp [hres]⟩
      · rintro ⟨vs, hvs, hres⟩
        cases vs with
        | nil => simp at hvs
        | cons v vs =>
          simp only [List.map_cons, List.cons.injEq, Except.ok.injEq] at hvs
          obtain ⟨rfl, hrest⟩ := hvs
          exact ⟨vs, hrest, by simp [hres]⟩

theorem scanRows_error (lib : GoLib) (columns : List ColumnInfo) (e : GoError)
    (rest : List (Except GoError ScanVars)) :
    ∀ (vs : List ScanVars) (acc : List Row),
      scanRows lib columns (vs.map Except.ok ++ Except.error e :: rest) acc
        = .error (Errorf "can not scan data: ".toList e) := by
  intro vs
  induction vs with
  | nil => intro acc; rfl
  | cons v vs ih => intro acc; simp only [List.map_cons, List.cons_append, scanRows]; exact ih _

/-- What a call of `QueryData` that returns no error went through. -/
theorem QueryData_success (lib : GoLib) (c : DefaultClient) (q : GoString) (n : Int)
    (res : QueryResult) (h : QueryData lib c q n = some (res, none)) :
    ∃ (rows : SqlRows) (columnTypes : List ColumnType) (vs : List ScanVars),
      c.conn.QueryContext (limitedQuery lib.upperTable q n) = .ok rows
      ∧ rows.ColumnTypes = .ok columnTypes
      ∧ rows.records = vs.map Except.ok
      ∧ res.Columns = buildColumns 0 columnTypes
      ∧ res.Rows = vs.map (decodeRow lib (buildColumns 0 columnTypes)) := by
  unfold QueryData executeQuery at h
  split at h
  · simp at h
  · split at h
    · simp at h
    · rename_i rows hrows
      split at h
      · simp at h
      · rename_i columnTypes hct
        split at h
        · simp at h
        · simp only at h
          split at h
          · simp at h
          · split at h
            · simp at h
            · rename_i results hscan
              split at h
              · simp at h
              · simp only [Option.some.injEq, Prod.mk.injEq, and_true] at h
                obtain ⟨vs, hvs, hres⟩ := (scanRows_ok_iff _ _ _ _ _).mp hscan
                refine ⟨rows, columnTypes, vs, hrows, hct, hvs, ?_, ?_⟩
                · rw [← h]
                · rw [← h]; simpa using hres

/-- The record loop of `QueryData` does not look at the number of columns: on a call that
returns no error and whose engine result reports an empty column set the result has no
columns and one empty row for each record of the cursor. -/
theorem QueryData_no_columns (lib : GoLib) (c : DefaultClient) (q : GoString) (n : Int)
    (rows : SqlRows) (res : QueryResult)
    (hq : c.conn.QueryContext (limitedQuery lib.upperTable q n) = .ok rows)
    (hct : rows.ColumnTypes = .ok [])
    (h : QueryData lib c q n = some (res, none)) :
    res.Columns = []
    ∧ res.Rows = List.replicate rows.records.length ([] : Row)
    ∧ (res.Rows = [] ↔ rows.records = []) := by
  obtain ⟨rows2, columnTypes, vs, hq2, hct2, hrec, hcols, hrows⟩ :=
    QueryData_success lib c q n res h
  rw [hq] at hq2
  cases hq2
  rw [hct] at hct2
  cases hct2
  have hr : res.Rows = List.replicate rows.records.length ([] : Row) := by
    rw [hrows, hrec, List.length_map]
    simp only [buildColumns, decodeRow, decodeColumns]
    exact List.map_const vs []
  refine ⟨hcols, hr, ?_⟩
  rw [hr]
  constructor
  · intro h0
    have := congrArg List.length h0
    simp only [List.length_replicate, List.length_nil] at this
    exact List.length_eq_zero.mp this
  · intro h0
    rw [h0]
    rfl

/-! ## Query normaliser -/

/-- C1: the query text `QueryData` hands to the engine is the reference
`applyLimit (normalizeQuery q) n`: the normalised query unchanged when `n ≤ 0` or when
`containsLimitClause` holds of it, and otherwise the normalised query followed by
`" LIMIT "` and the decimal rendering of `n`; on `("SELECT * FROM t", 50)` it is
`"SELECT * FROM t LIMIT 50"`, and limits `0` and `-5` leave the normalised query as it is. -/
theorem limitedQuery_eq_applyLimit (lib : GoLib) (c : DefaultClient) (q : GoString)
    (n : Int) :
    limitedQuery lib.upperTable q n = applyLimit lib.upperTable (normalizeQuery q) n
    ∧ QueryData lib c q n
        = executeQuery lib c (applyLimit lib.upperTable (normalizeQuery q) n)
    ∧ limitedQuery lib.upperTable q n
        = (if n ≤ 0 ∨ containsLimitClause lib.upperTable (normalizeQuery q) = true then
            normalizeQuery q
          else normalizeQuery q ++ " LIMIT ".toList ++ (Nat.repr n.toNat).toList)
    ∧ limitedQuery lib.upperTable "SELECT * FROM t".toList 50
        = "SELECT * FROM t LIMIT 50".toList
    ∧ limitedQuery lib.upperTable q 0 = normalizeQuery q
    ∧ limitedQuery lib.upperTable q (-5) = normalizeQuery q := by
  have key : limitedQuery lib.upperTable q n
      = applyLimit lib.upperTable (normalizeQuery q) n := by
    unfold limitedQuery applyLimit
    by_cases hn : n ≤ 0
    · have hn2 : ¬ n > 0 := by omega
      simp [hn, hn2]
    · have hn2 : n > 0 := by omega
      cases hc : containsLimitClause lib.upperTable (normalizeQuery q) <;> simp [hn, hn2, hc]
  refine ⟨key, ?_, ?_, rfl, ?_, ?_⟩
  · unfold QueryData
    rw [key]
  · rw [key]
    unfold applyLimit
    by_cases hn : n ≤ 0
    · simp [hn]
    · have hn2 : ¬ n < 0 := by omega
      cases hc : containsLimitClause lib.upperTable (normalizeQuery q) <;>
        simp [hn, hc, Itoa, hn2, Nat.repr, List.asString]
  · simp [limitedQuery]
  · simp [limitedQuery]

/-- C6, counterexample: on `"SELECT 1;;"` one pass strips one terminator only, and a second
pass changes the result again. -/
theorem normalizeQuery_not_idempotent :
    normalizeQuery "SELECT 1;;".toList = "SELECT 1;".toList
    ∧ normalizeQuery (normalizeQuery "SELECT 1;;".toList) = "SELECT 1".toList
    ∧ normalizeQuery (normalizeQuery "SELECT 1;;".toList)
        ≠ normalizeQuery "SELECT 1;;".toList := by
  decide

/-- C6, amended: `normalizeQuery` trims the query, removes exactly one trailing terminator
`;` when the trimmed text ends in one, and trims again.  Its result is always trimmed.  A
second pass changes nothing exactly when the result of the first does not end in `;`: it
changes nothing when the trimmed query ends in no terminator or in a single one, and it
changes the result for every query that, once trimmed, ends in two or more terminators
(with or without white space between them), where the first pass leaves the text up to and
with the last but one terminator and the second pass removes that one too. -/
theorem normalizeQuery_idempotent_iff :
    (∀ q : GoString,
      TrimSpace (normalizeQuery q) = normalizeQuery q
      ∧ ((TrimSpace q).getLast? ≠ some ';' → normalizeQuery q = TrimSpace q)
      ∧ (∀ u : GoString, TrimSpace q = u ++ [';'] → normalizeQuery q = TrimSpace u)
      ∧ (normalizeQuery (normalizeQuery q) = normalizeQuery q
          ↔ (normalizeQuery q).getLast? ≠ some ';')
      ∧ ((TrimSpace q).getLast? ≠ some ';' →
          normalizeQuery (normalizeQuery q) = normalizeQuery q)
      ∧ (∀ u : GoString, TrimSpace q = u ++ [';'] →
          (normalizeQuery (normalizeQuery q) = normalizeQuery q
            ↔ (TrimSpace u).getLast? ≠ some ';'))
      ∧ (∀ v : GoString, TrimSpace q = v ++ [';', ';'] →
          normalizeQuery q = v ++ [';']
          ∧ normalizeQuery (normalizeQuery q) = TrimSpace v
          ∧ normalizeQuery (normalizeQuery q) ≠ normalizeQuery q))
    ∧ (∀ ws1 ws2 ws3 core : GoString, AllSpace ws1 → AllSpace ws2 → AllSpace ws3 →
        Trimmed core → core ≠ [] → core.getLast? ≠ some ';' →
        normalizeQuery (ws1 ++ core ++ ws2) = core
        ∧ normalizeQuery (ws1 ++ core ++ ws3 ++ [';'] ++ ws2) = core
        ∧ normalizeQuery (normalizeQuery (ws1 ++ core ++ ws3 ++ [';'] ++ ws2)) = core
        ∧ normalizeQuery (ws1 ++ core ++ [';'] ++ ws3 ++ [';'] ++ ws2) = core ++ [';']
        ∧ normalizeQuery (normalizeQuery (ws1 ++ core ++ [';'] ++ ws3 ++ [';'] ++ ws2))
            = core) := by
  have hnil : AllSpace [] := fun _ hc => absurd hc (List.not_mem_nil _)
  have part1 : ∀ q : GoString, ∀ v : GoString, TrimSpace q = v ++ [';', ';'] →
      normalizeQuery q = v ++ [';']
      ∧ normalizeQuery (normalizeQuery q) = TrimSpace v
      ∧ normalizeQuery (normalizeQuery q) ≠ normalizeQuery q := by
    intro q v hv
    have hv2 : TrimSpace q = (v ++ [';']) ++ [';'] := by simp [hv]
    have htq := TrimSpace_trimmed q
    have htr : Trimmed (v ++ [';']) := by
      apply Trimmed_append_terminator
      intro c hc
      apply htq.1 c
      rw [hv]
      cases v with
      | nil => cases hc
      | cons y ys => simpa using hc
    have h1 : normalizeQuery q = v ++ [';'] := by
      rw [normalizeQuery_terminator q _ hv2, TrimSpace_of_trimmed _ htr]
    have h2 : normalizeQuery (normalizeQuery q) = TrimSpace v := by
      rw [h1]
      exact normalizeQuery_terminator _ v (TrimSpace_of_trimmed _ htr)
    refine ⟨h1, h2, ?_⟩
    rw [h2, h1]
    intro heq
    have := TrimSpace_length_le v
    rw [heq] at this
    simp at this
  refine ⟨?_, ?_⟩
  · intro q
    refine ⟨?_, normalizeQuery_no_terminator q, normalizeQuery_terminator q,
      normalizeQuery_second_pass q, ?_, ?_, part1 q⟩
    · unfold normalizeQuery
      exact TrimSpace_idempotent _
    · intro h
      rw [normalizeQuery_second_pass, normalizeQuery_no_terminator q h]
      exact h
    · intro u hu
      rw [normalizeQuery_second_pass, normalizeQuery_terminator q u hu]
  · intro ws1 ws2 ws3 core h1 h2 h3 hc hne hlast
    have hcore3 : TrimSpace (core ++ ws3) = core := by
      have := TrimSpace_sandwich [] core ws3 hnil h3 hc
      simpa using this
    have hhead3 : ∀ c, (core ++ ws3).head? = some c → IsSpace c = false := by
      intro c hcc
      apply hc.1 c
      cases core with
      | nil => exact absurd rfl hne
      | cons y ys => simpa using hcc
    have ha : normalizeQuery (ws1 ++ core ++ ws2) = core := by
      have ht := TrimSpace_sandwich ws1 core ws2 h1 h2 hc
      rw [normalizeQuery_no_terminator _ (by rw [ht]; exact hlast), ht]
    have hb : normalizeQuery (ws1 ++ core ++ ws3 ++ [';'] ++ ws2) = core := by
      have ht := TrimSpace_sandwich ws1 ((core ++ ws3) ++ [';']) ws2 h1 h2
        (Trimmed_append_terminator _ hhead3)
      have hre : ws1 ++ core ++ ws3 ++ [';'] ++ ws2
          = ws1 ++ ((core ++ ws3) ++ [';']) ++ ws2 := by simp
      rw [hre, normalizeQuery_terminator _ _ ht, hcore3]
    have hcs : Trimmed (core ++ [';']) :=
      Trimmed_append_terminator core hc.1
    have hcs3 : TrimSpace (core ++ [';'] ++ ws3) = core ++ [';'] := by
      have := TrimSpace_sandwich [] (core ++ [';']) ws3 hnil h3 hcs
      simpa using this
    have hhead4 : ∀ c, (core ++ [';'] ++ ws3).head? = some c → IsSpace c = false := by
      intro c hcc
      apply hc.1 c
      cases core with
      | nil => exact absurd rfl hne
      | cons y ys => simpa using hcc
    have hd : normalizeQuery (ws1 ++ core ++ [';'] ++ ws3 ++ [';'] ++ ws2)
        = core ++ [';'] := by
      have ht := TrimSpace_sandwich ws1 ((core ++ [';'] ++ ws3) ++ [';']) ws2 h1 h2
        (Trimmed_append_terminator _ hhead4)
      have hre : ws1 ++ core ++ [';'] ++ ws3 ++ [';'] ++ ws2
          = ws1 ++ ((core ++ [';'] ++ ws3) ++ [';']) ++ ws2 := by simp
      rw [hre, normalizeQuery_terminator _ _ ht, hcs3]
    have hcore : normalizeQuery core = core := by
      have := ha
      rw [normalizeQuery_no_terminator _ (by rw [TrimSpace_of_trimmed _ hc]; exact hlast),
        TrimSpace_of_trimmed _ hc]
    have he : normalizeQuery (core ++ [';']) = core := by
      rw [normalizeQuery_terminator _ core (TrimSpace_of_trimmed _ hcs),
        TrimSpace_of_trimmed _ hc]
    refine ⟨ha, hb, ?_, hd, ?_⟩
    · rw [hb, hcore]
    · rw [hd, he]

/-- C6, at concrete queries: `"  SELECT 1 ;\n"` loses its terminator and stays as it is under
a second pass; `" SELECT 1; ;"` keeps one terminator after the first pass and loses it in
the second. -/
theorem normalizeQuery_idempotent_iff_at_queries :
    normalizeQuery "  SELECT 1 ;\n".toList = "SELECT 1".toList
    ∧ normalizeQuery (normalizeQuery "  SELECT 1 ;\n".toList) = "SELECT 1".toList
    ∧ normalizeQuery " SELECT 1; ;".toList = "SELECT 1;".toList
    ∧ normalizeQuery (normalizeQuery " SELECT 1; ;".toList) = "SELECT 1".toList := by
  have hs1 : AllSpace "  ".toList := by unfold AllSpace; decide
  have hs2 : AllSpace "\n".toList := by unfold AllSpace; decide
  have hs3 : AllSpace " ".toList := by unfold AllSpace; decide
  have hs0 : AllSpace "".toList := by unfold AllSpace; decide
  have hcore : Trimmed "SELECT 1".toList := by
    constructor <;> intro c hc <;> simp at hc <;> subst hc <;> decide
  have hne : "SELECT 1".toList ≠ [] := by decide
  have hlast : "SELECT 1".toList.getLast? ≠ some ';' := by decide
  have hA := normalizeQuery_idempotent_iff.2 "  ".toList "\n".toList " ".toList
    "SELECT 1".toList hs1 hs2 hs3 hcore hne hlast
  have hB := normalizeQuery_idempotent_iff.2 " ".toList "".toList " ".toList
    "SELECT 1".toList hs3 hs0 hs3 hcore hne hlast
  exact ⟨hA.2.1, hA.2.2.1, hB.2.2.2.1, hB.2.2.2.2⟩

/-- C4, failing input: the query `"SELECT * FROM t -- all rows"` with limit 50 is sent to the
engine as `"SELECT * FROM t -- all rows LIMIT 50"`; the appended clause lies inside the line
comment and the final text carries no limit clause. -/
theorem limitedQuery_limit_in_comment (upperTable : Char → Char) :
    normalizeQuery "SELECT * FROM t -- all rows".toList = "SELECT * FROM t -- all rows".toList
    ∧ limitedQuery upperTable "SELECT * FROM t -- all rows".toList 50
        = "SELECT * FROM t -- all rows LIMIT 50".toList
    ∧ removeComments "SELECT * FROM t -- all rows LIMIT 50".toList = "SELECT * FROM t ".toList
    ∧ containsLimitClause upperTable
        (limitedQuery upperTable "SELECT * FROM t -- all rows".toList 50) = false :=
  ⟨rfl, rfl, rfl, rfl⟩

/-- C5, failing input: with `pre = "SELECT "`, `post = " * FROM t"` and the comment bodies
`"/ LIMIT 5 "` and `""` (neither contains `*/`, `pre` contains no `/*`), the body decides the
answer: the closing delimiter is searched from the start of the opening one, so `/*/` is
removed as a whole comment and the rest of the body is kept.  For bodies that do not begin
with `/` the answer does not depend on the body. -/
theorem containsLimitClause_reads_comment_body (upperTable : Char → Char) :
    Index "SELECT ".toList "/*".toList = none
    ∧ Index "/ LIMIT 5 ".toList "*/".toList = none
    ∧ Index "".toList "*/".toList = none
    ∧ removeComments ("SELECT ".toList ++ "/*".toList ++ "/ LIMIT 5 ".toList ++ "*/".toList
        ++ " * FROM t".toList) = "SELECT   LIMIT 5 */ * FROM t".toList
    ∧ containsLimitClause upperTable ("SELECT ".toList ++ "/*".toList ++ "/ LIMIT 5 ".toList
        ++ "*/".toList ++ " * FROM t".toList) = true
    ∧ containsLimitClause upperTable ("SELECT ".toList ++ "/*".toList ++ "".toList
        ++ "*/".toList ++ " * FROM t".toList) = false
    ∧ (∀ pre post body1 body2 : GoString, Index pre "/*".toList = none →
        Index body1 "*/".toList = none → Index body2 "*/".toList = none →
        body1.head? ≠ some '/' → body2.head? ≠ some '/' →
        containsLimitClause upperTable (pre ++ "/*".toList ++ body1 ++ "*/".toList ++ post)
          = containsLimitClause upperTable
              (pre ++ "/*".toList ++ body2 ++ "*/".toList ++ post)) := by
  refine ⟨rfl, rfl, rfl, rfl, rfl, rfl, ?_⟩
  intro pre post body1 body2 hpre hb1 hb2 hh1 hh2
  unfold containsLimitClause
  rw [removeComments_block pre body1 post hpre hb1 hh1,
    removeComments_block pre body2 post hpre hb2 hh2]

/-! ## Type-name helpers -/

/-- C7: `GetBaseType` undoes the array wrapper: `"Array(" ++ t ++ ")"` is an array type with
base type `t`, for every byte string `t` and so for every text `t`, and a name that is not
an array type is its own base type; in particular `GetBaseType "Array(Int32)" = "Int32"`
and `"Int32"` is not an array type. -/
theorem GetBaseType_array_wrapper :
    (∀ t : GoBytes, IsArrayType (utf8 "Array(".toList ++ t ++ utf8 ")".toList) = true
        ∧ GetBaseType (utf8 "Array(".toList ++ t ++ utf8 ")".toList) = some t)
    ∧ (∀ s : GoBytes, IsArrayType s = false → GetBaseType s = some s)
    ∧ (∀ t : GoString, IsArrayType (utf8 ("Array(".toList ++ t ++ ")".toList)) = true
        ∧ GetBaseType (utf8 ("Array(".toList ++ t ++ ")".toList)) = some (utf8 t))
    ∧ (∀ s : GoString, IsArrayType (utf8 s) = false → GetBaseType (utf8 s) = some (utf8 s))
    ∧ GetBaseType (utf8 "Array(Int32)".toList) = some (utf8 "Int32".toList)
    ∧ IsArrayType (utf8 "Int32".toList) = false := by
  have hbytes : ∀ t : GoBytes,
      IsArrayType (utf8 "Array(".toList ++ t ++ utf8 ")".toList) = true
      ∧ GetBaseType (utf8 "Array(".toList ++ t ++ utf8 ")".toList) = some t := by
    intro t
    have hw : utf8 "Array(".toList ++ t ++ utf8 ")".toList
        = 65 :: 114 :: 114 :: 97 :: 121 :: 40 :: (t ++ [41]) := by
      have h1 : utf8 "Array(".toList = [65, 114, 114, 97, 121, 40] := by decide
      have h2 : utf8 ")".toList = [41] := by decide
      rw [h1, h2]
      simp
    have h5 : utf8 "Array".toList = [65, 114, 114, 97, 121] := by decide
    have hA : IsArrayType (utf8 "Array(".toList ++ t ++ utf8 ")".toList) = true := by
      rw [hw]
      unfold IsArrayType
      rw [h5]
      simp
    refine ⟨hA, ?_⟩
    unfold GetBaseType
    rw [if_pos hA, hw]
    simp [Slice]
  have hother : ∀ s : GoBytes, IsArrayType s = false → GetBaseType s = some s := by
    intro s hs
    unfold GetBaseType
    simp [hs]
  refine ⟨hbytes, hother, ?_, fun s => hother (utf8 s), by decide, by decide⟩
  intro t
  have hsplit : utf8 ("Array(".toList ++ t ++ ")".toList)
      = utf8 "Array(".toList ++ utf8 t ++ utf8 ")".toList := by
    rw [utf8_append, utf8_append]
  rw [hsplit]
  exact hbytes (utf8 t)

/-- C7, at a concrete name: `"Int32"` is not an array type and is its own base type. -/
theorem GetBaseType_array_wrapper_at_int32 :
    IsArrayType (utf8 "Int32".toList) = false
    ∧ GetBaseType (utf8 "Int32".toList) = some (utf8 "Int32".toList) :=
  ⟨by decide, GetBaseType_array_wrapper.2.1 (utf8 "Int32".toList) (by decide)⟩

/-- C10, failing input: `"Array("` is an array type by `IsArrayType`, the bounds `6` and
`len - 1 = 5` of the slice in `GetBaseType` are not in order, and `GetBaseType` panics; it
panics exactly on the array type names of 6 bytes (on the 7 bytes of `"Arrayé"` it returns
the empty string). -/
theorem GetBaseType_panics :
    IsArrayType (utf8 "Array(".toList) = true
    ∧ ¬ (6 ≤ (utf8 "Array(".toList).length - 1)
    ∧ GetBaseType (utf8 "Array(".toList) = none
    ∧ GetBaseType (utf8 "Arrayé".toList) = some []
    ∧ ∀ s : GoBytes, GetBaseType s = none ↔ (IsArrayType s = true ∧ s.length = 6) := by
  refine ⟨by decide, by decide, by decide, by decide, ?_⟩
  intro s
  unfold GetBaseType Slice
  cases hA : IsArrayType s with
  | false => simp
  | true =>
    have hlen : s.length ≥ 6 := by
      simp only [IsArrayType, Bool.and_eq_true, decide_eq_true_eq] at hA
      exact hA.1
    simp only [if_true, true_and]
    constructor
    · intro h
      split at h
      · cases h
      · omega
    · intro h
      rw [if_neg (by omega)]

/-! ## Result materialiser -/

/-- C2: whenever `QueryData` returns an error the result returned with it has no columns and
no rows; a cursor whose record `N` fails to scan after `N` decoded records gives the scan
error with the empty result, and so does a cursor that reports a deferred error after the
loop: the rows accumulated so far are not returned. -/
theorem QueryData_error_result_empty :
    (∀ (lib : GoLib) (c : DefaultClient) (q : GoString) (n : Int) (res : QueryResult)
        (err : GoError), QueryData lib c q n = some (res, some err) →
        res.Columns = [] ∧ res.Rows = [])
    ∧ (∀ (lib : GoLib) (c : DefaultClient) (q : GoString) (n : Int) (rows : SqlRows)
        (columnTypes : List ColumnType) (columnNames : List GoString)
        (decoded : List ScanVars) (e : GoError) (rest : List (Except GoError ScanVars)),
        c.conn.PingContext = none →
        c.conn.QueryContext (limitedQuery lib.upperTable q n) = .ok rows →
        rows.ColumnTypes = .ok columnTypes → rows.Columns = .ok columnNames →
        columnTypes.length ≤ columnNames.length →
        rows.records = decoded.map Except.ok ++ Except.error e :: rest →
        QueryData lib c q n
          = some (QueryResult.zero, some (Errorf "can not scan data: ".toList e)))
    ∧ (∀ (lib : GoLib) (c : DefaultClient) (q : GoString) (n : Int) (rows : SqlRows)
        (columnTypes : List ColumnType) (columnNames : List GoString)
        (decoded : List ScanVars) (e : GoError),
        c.conn.PingContext = none →
        c.conn.QueryContext (limitedQuery lib.upperTable q n) = .ok rows →
        rows.ColumnTypes = .ok columnTypes → rows.Columns = .ok columnNames →
        columnTypes.length ≤ columnNames.length →
        rows.records = decoded.map Except.ok → rows.Err = some e →
        QueryData lib c q n
          = some (QueryResult.zero, some (Errorf "can not process results: ".toList e))) := by
  have hlen : ∀ (i : Nat) (cts : List ColumnType),
      (buildColumns i cts).length = cts.length := by
    intro i cts
    induction cts generalizing i with
    | nil => rfl
    | cons ct rest ih => simp [buildColumns, ih]
  refine ⟨?_, ?_, ?_⟩
  · intro lib c q n res err h
    have hz : ∀ e : Option GoError, some (QueryResult.zero, e) = some (res, some err) →
        res.Columns = [] ∧ res.Rows = [] := by
      intro e he
      simp only [Option.some.injEq, Prod.mk.injEq] at he
      rw [← he.1]
      exact ⟨rfl, rfl⟩
    unfold QueryData executeQuery at h
    split at h
    · exact hz _ h
    · split at h
      · exact hz _ h
      · split at h
        · exact hz _ h
        · split at h
          · exact hz _ h
          · simp only at h
            split at h
            · simp at h
            · split at h
              · exact hz _ h
              · split at h
                · exact hz _ h
                · simp at h
  · intro lib c q n rows columnTypes columnNames decoded e rest hping hq hct hcn hle hrec
    have hnot : ¬ columnNames.length < (buildColumns 0 columnTypes).length := by
      rw [hlen]; omega
    simp only [QueryData, executeQuery, ensureConnection, hping, hq, hct, hcn, hrec,
      scanRows_error, if_neg hnot]
  · intro lib c q n rows columnTypes columnNames decoded e hping hq hct hcn hle hrec herr
    have hnot : ¬ columnNames.length < (buildColumns 0 columnTypes).length := by
      rw [hlen]; omega
    have hscan := (scanRows_ok_iff lib (buildColumns 0 columnTypes) (decoded.map Except.ok) []
      _).mpr ⟨decoded, rfl, rfl⟩
    simp only [QueryData, executeQuery, ensureConnection, hping, hq, hct, hcn, hrec,
      hscan, herr, if_neg hnot]

/-- C2, at concrete cursors: one record decodes and the next fails to scan; one record
decodes and the cursor reports a deferred error. -/
theorem QueryData_error_result_empty_at_cursors :
    (∀ lib : GoLib, QueryData lib (clientOf failingScanRows) "SELECT 1 AS a, 2 AS b".toList 0
      = some (QueryResult.zero, some "can not scan data: conversion".toList))
    ∧ (∀ lib : GoLib, QueryData lib (clientOf brokenCursorRows) "SELECT 1 AS a, 2 AS b".toList 0
      = some (QueryResult.zero, some "can not process results: interrupted".toList)) :=
  ⟨fun lib => QueryData_error_result_empty.2.1 lib (clientOf failingScanRows) _ 0
      failingScanRows twoNameTypes _ [sampleVars] _ [.ok sampleVars] rfl rfl rfl rfl
      (by decide) rfl,
   fun lib => QueryData_error_result_empty.2.2 lib (clientOf brokenCursorRows) _ 0
      brokenCursorRows twoNameTypes _ [sampleVars] _ rfl rfl rfl rfl (by decide) rfl rfl⟩

/-- C3: for a column flagged `IsArray` whose type name is outside the dispatch table and a
scanned value that is a non-empty generic sequence whose first element is a raw byte
sequence, the value stored for the column is a sequence of strings of the same length, whose
element `j` is the text of the bytes of element `j` when that is a raw byte sequence and its
`fmt.Sprint` rendering otherwise; when every element is a raw byte sequence the strings are
the texts of the elements.  The row holds it under the column name unless a later column of
the same name replaces it. -/
theorem decodeValue_byte_array (lib : GoLib) (col : ColumnInfo) (vars : ScanVars) (i : Nat)
    (first : GoString) (rest : List GoAny)
    (hArray : col.IsArray = true) (hType : col.Typ ∉ dispatchTypeNames)
    (hVal : vars.anyVars i = .slice (.bytes first :: rest)) :
    ∃ strs : List GoString,
      decodeValue lib col vars i = .strSlice strs
      ∧ strs.length = (GoAny.bytes first :: rest).length
      ∧ (∀ (j : Nat) (hj : j < (GoAny.bytes first :: rest).length),
          strs[j]? = some (match (GoAny.bytes first :: rest)[j] with
            | .bytes byteItem => byteItem
            | item => lib.sprint item))
      ∧ (∀ texts : List GoString, GoAny.bytes first :: rest = texts.map GoAny.bytes →
          strs = texts)
      ∧ (∀ (cols : List ColumnInfo) (hi : i < cols.length), cols[i] = col →
          (∀ j (hj : j < cols.length), i < j → cols[j].Name ≠ col.Name) →
          (decodeRow lib cols vars).lookup col.Name = some (.strSlice strs)) := by
  have hdec : decodeValue lib col vars i
      = .strSlice ((GoAny.bytes first :: rest).map (itemText lib)) := by
    simp [dispatchTypeNames] at hType
    simp [decodeValue, hType, hVal, hArray]
  refine ⟨(GoAny.bytes first :: rest).map (itemText lib), hdec, by simp, ?_, ?_, ?_⟩
  · intro j hj
    rw [List.getElem?_map, List.getElem?_eq_getElem hj]
    simp only [Option.map_some', Option.some.injEq]
    cases (GoAny.bytes first :: rest)[j] <;> rfl
  · intro texts ht
    rw [ht, List.map_map]
    have : (itemText lib ∘ GoAny.bytes) = id := by
      funext b; rfl
    rw [this, List.map_id]
  · intro cols hi hcol hlast
    have h := decodeColumns_lookup lib vars cols 0 [] i hi (by
      intro j hj hij
      rw [hcol]
      exact hlast j hj hij)
    rw [hcol, Nat.zero_add, hdec] at h
    exact h

/-- C3, at a concrete column: an `Array(String)` column whose scanned value is
`[[]byte("a"), int64(7)]`. -/
theorem decodeValue_byte_array_at_tags :
    tagsColumn.IsArray = true ∧ tagsColumn.Typ ∉ dispatchTypeNames
    ∧ sampleVars.anyVars 0 = .slice [.bytes "a".toList, .int64 7]
    ∧ ∀ lib : GoLib, ∃ strs : List GoString,
      decodeValue lib tagsColumn sampleVars 0 = .strSlice strs
      ∧ strs.length = 2
      ∧ strs[0]? = some "a".toList
      ∧ strs[1]? = some (lib.sprint (.int64 7)) := by
  refine ⟨by decide, by decide, rfl, fun lib => ?_⟩
  obtain ⟨strs, h1, h2, h3, _⟩ := decodeValue_byte_array lib tagsColumn sampleVars 0
    "a".toList [.int64 7] (by decide) (by decide) rfl
  exact ⟨strs, h1, h2, h3 0 (by decide), h3 1 (by decide)⟩

/-- C9, counterexample: two signed columns named `a` holding 1 and 2; the row has one entry,
`a ↦ 2`, and the value 1 of the first column is not in it. -/
theorem decodeRow_same_name :
    (buildColumns 0 sameNameTypes).map (·.Name) = ["a".toList, "a".toList]
    ∧ (∀ lib : GoLib, decodeValue lib ((buildColumns 0 sameNameTypes)[0]) sampleVars 0
        = .int64 1)
    ∧ (∀ lib : GoLib, decodeRow lib (buildColumns 0 sameNameTypes) sampleVars
        = [("a".toList, .int64 2)])
    ∧ (∀ lib : GoLib, (decodeRow lib (buildColumns 0 sameNameTypes) sampleVars).lookup
          ((buildColumns 0 sameNameTypes)[0]).Name
        ≠ some (decodeValue lib ((buildColumns 0 sameNameTypes)[0]) sampleVars 0)) := by
  refine ⟨rfl, fun _ => rfl, fun _ => rfl, fun lib h => ?_⟩
  have h2 : some (GoAny.int64 2) = some (GoAny.int64 1) := h
  simp at h2

/-- C9, amended: the row built for a record maps the name of column `i` to the decoded value
of column `i` whenever no later column has the same name; when the column names are pairwise
distinct the keys of the row are the column names, one entry for each column.  Every row of
a result returned without error is the row built for a scanned record. -/
theorem decodeRow_keeps_last_of_name (lib : GoLib) (cols : List ColumnInfo)
    (vars : ScanVars) :
    (∀ (i : Nat) (hi : i < cols.length),
        (∀ j (hj : j < cols.length), i < j → cols[j].Name ≠ cols[i].Name) →
        (decodeRow lib cols vars).lookup cols[i].Name
          = some (decodeValue lib cols[i] vars i))
    ∧ ((cols.map (·.Name)).Nodup →
        (decodeRow lib cols vars).map Prod.fst = cols.map (·.Name)
        ∧ (decodeRow lib cols vars).length = cols.length)
    ∧ (∀ (c : DefaultClient) (q : GoString) (n : Int) (res : QueryResult),
        QueryData lib c q n = some (res, none) →
        ∀ row ∈ res.Rows, ∃ scanned : ScanVars, row = decodeRow lib res.Columns scanned) := by
  refine ⟨?_, ?_, ?_⟩
  · intro i hi hlast
    have h := decodeColumns_lookup lib vars cols 0 [] i hi hlast
    rw [Nat.zero_add] at h
    exact h
  · intro hnd
    have h := decodeColumns_keys lib vars cols 0 [] (by simpa using hnd)
    have hk : (decodeRow lib cols vars).map Prod.fst = cols.map (·.Name) := by
      simpa [decodeRow] using h
    refine ⟨hk, ?_⟩
    have := congrArg List.length hk
    simpa using this
  · intro c q n res h row hrow
    obtain ⟨rows, columnTypes, vs, _, _, _, hcols, hrows⟩ := QueryData_success lib c q n res h
    rw [hrows, List.mem_map] at hrow
    obtain ⟨v, _, hv⟩ := hrow
    exact ⟨v, by rw [hcols, hv]⟩

/-- C9, at concrete columns: two signed columns named `a` and `b` holding 1 and 2. -/
theorem decodeRow_keeps_last_of_name_at_two_names :
    (buildColumns 0 twoNameTypes).map (·.Name) = ["a".toList, "b".toList]
    ∧ ∀ lib : GoLib,
      (decodeRow lib (buildColumns 0 twoNameTypes) sampleVars).lookup "a".toList
        = some (.int64 1)
      ∧ (decodeRow lib (buildColumns 0 twoNameTypes) sampleVars).lookup "b".toList
        = some (.int64 2)
      ∧ (decodeRow lib (buildColumns 0 twoNameTypes) sampleVars).length = 2 :=
  ⟨rfl, fun lib =>
    ⟨(decodeRow_keeps_last_of_name lib (buildColumns 0 twoNameTypes) sampleVars).1 0
        (by decide) (by decide),
     (decodeRow_keeps_last_of_name lib (buildColumns 0 twoNameTypes) sampleVars).1 1
        (by decide) (by decide),
     ((decodeRow_keeps_last_of_name lib (buildColumns 0 twoNameTypes) sampleVars).2.1
        (by decide)).2⟩⟩

end Duckdb
